import Mathlib

/-!
Shallow embedding of the Personal Finance Agent pipeline
(`finance_agent.py`): expense extraction, keyword classification,
session ledger and insight generation, with an explicit-heap model of
the observability logger.  Amounts are modelled as exact rationals.
-/

namespace FinanceAgent

/-! ### Extractor (`ExpenseParserTool.parse`) -/

/-- ASCII whitespace accepted by the regex token `\s`. -/
def isSpaceChar (c : Char) : Bool :=
  c = ' ' || c = '\t' || c = '\n' || c = '\r' || c = '\x0b' || c = '\x0c'

/-- Value of a big-endian ASCII digit string. -/
def digitsVal (ds : List Char) : ℕ :=
  ds.foldl (fun a c => 10 * a + (c.toNat - 48)) 0

/-- Greedy match of the regex `\d+(?:\.\d{2})?` anchored at the head of
`cs`: one or more digits, optionally followed by a point and exactly two
digits.  Returns the matched characters. -/
def numeralAt (cs : List Char) : Option (List Char) :=
  if (cs.takeWhile Char.isDigit).isEmpty then none
  else
    match cs.drop (cs.takeWhile Char.isDigit).length with
    | '.' :: d1 :: d2 :: _ =>
      if d1.isDigit && d2.isDigit then
        some (cs.takeWhile Char.isDigit ++ ['.', d1, d2])
      else some (cs.takeWhile Char.isDigit)
    | _ => some (cs.takeWhile Char.isDigit)

/-- Model of `re.search` for `sym\s*(\d+(?:\.\d{2})?)`: scan start positions left to
right; at a position holding `sym`, skip whitespace greedily and try the
numeral.  Returns the captured numeral of the leftmost match. -/
def findSymAmount (sym : Char) : List Char → Option (List Char)
  | [] => none
  | c :: cs =>
    if c = sym then
      match numeralAt (cs.dropWhile isSpaceChar) with
      | some num => some num
      | none => findSymAmount sym cs
    else findSymAmount sym cs

/-- Model of `re.search` for a bare numeral `(\d+(?:\.\d{2})?)` anywhere in the
text (leftmost match). -/
def findNumeral : List Char → Option (List Char)
  | [] => none
  | c :: cs =>
    match numeralAt (c :: cs) with
    | some num => some num
    | none => findNumeral cs

/-- Decimal value of a matched numeral (digits, optionally `.` and a
fractional digit block), as an exact rational. -/
def decVal (cs : List Char) : ℚ :=
  match cs.drop (cs.takeWhile Char.isDigit).length with
  | '.' :: frac =>
    (digitsVal (cs.takeWhile Char.isDigit) : ℚ) + (digitsVal frac : ℚ) / (10 ^ frac.length)
  | _ => (digitsVal (cs.takeWhile Char.isDigit) : ℚ)

/-- Result of `ExpenseParserTool.parse`: the returned dict. -/
structure ParsedExpense where
  amount : ℚ
  currency : String
  description : String
  raw_input : String
  parsed_at : String
deriving DecidableEq

/-- Model of `ExpenseParserTool.parse`.  `now` stands for `datetime.now().isoformat()`.
Priority: rupee-prefixed numeral, then dollar-prefixed numeral, then any
bare numeral (with the default currency), else amount 0. -/
def parse (now text : String) : ParsedExpense :=
  let cs := text.data
  let ac : ℚ × String :=
    match findSymAmount '₹' cs with
    | some num => (decVal num, "₹")
    | none =>
      match findSymAmount '$' cs with
      | some num => (decVal num, "$")
      | none =>
        match findNumeral cs with
        | some num => (decVal num, "₹")
        | none => (0, "₹")
  { amount := ac.1, currency := ac.2, description := text,
    raw_input := text, parsed_at := now }

/-! ### Classifier (`CategoryClassifierTool`) -/

/-- Model of `str.lower`, ASCII case folding. -/
def strLower (s : String) : String := ⟨s.data.map Char.toLower⟩

/-- Does `pre` occur at the head of `l`? -/
def isPrefixB : List Char → List Char → Bool
  | [], _ => true
  | _ :: _, [] => false
  | a :: as, b :: bs => a = b && isPrefixB as bs

/-- Python substring test `needle in hay`. -/
def containsSub (needle : List Char) : List Char → Bool
  | [] => isPrefixB needle []
  | c :: cs => isPrefixB needle (c :: cs) || containsSub needle cs

/-- Python substring test `keyword in description_lower`. -/
def kwIn (keyword descrLower : String) : Bool :=
  containsSub keyword.data descrLower.data

/-- Keywords of the `food` category. -/
def foodKeywords : List String :=
  ["grocery", "groceries", "restaurant", "cafe", "coffee",
   "lunch", "dinner", "breakfast", "food", "meal", "eating",
   "dmart", "reliance", "bigbasket", "swiggy", "zomato",
   "biryani", "chai", "tea", "snack"]

/-- Keywords of the `transportation` category. -/
def transportationKeywords : List String :=
  ["uber", "lyft", "gas", "fuel", "parking", "taxi",
   "metro", "bus", "train", "travel", "trip", "flight",
   "car", "vehicle", "commute", "auto", "rickshaw",
   "ola", "rapido", "petrol", "diesel"]

/-- Keywords of the `entertainment` category. -/
def entertainmentKeywords : List String :=
  ["movie", "cinema", "netflix", "spotify", "game",
   "concert", "theater", "fun", "entertainment",
   "hotstar", "prime", "pvr", "inox", "gaming"]

/-- Keywords of the `utilities` category. -/
def utilitiesKeywords : List String :=
  ["electric", "electricity", "water", "internet", "phone",
   "mobile", "bill", "utility", "broadband", "wifi",
   "jio", "airtel", "vi", "bsnl", "gas", "lpg"]

/-- Keywords of the `shopping` category. -/
def shoppingKeywords : List String :=
  ["amazon", "mall", "store", "shop", "clothing", "clothes",
   "purchase", "bought", "flipkart", "myntra", "ajio", "meesho",
   "shopping", "shirt", "shoes"]

/-- Keywords of the `healthcare` category. -/
def healthcareKeywords : List String :=
  ["doctor", "pharmacy", "medicine", "hospital", "clinic",
   "medical", "health", "apollo", "fortis", "prescription"]

/-- The category keywords database, in declaration order. -/
def categories : List (String × List String) :=
  [("food", foodKeywords),
   ("transportation", transportationKeywords),
   ("entertainment", entertainmentKeywords),
   ("utilities", utilitiesKeywords),
   ("shopping", shoppingKeywords),
   ("healthcare", healthcareKeywords),
   ("other", [])]

/-- Does the (lowered) description match some keyword of the category row? -/
def rowMatches (descrLower : String) (row : String × List String) : Bool :=
  row.2.any (fun k => kwIn k descrLower)

/-- Model of `CategoryClassifierTool.classify`: first category in declaration order
with a matching keyword, else the catch-all `other`. -/
def classify (description : String) : String :=
  let dl := strLower description
  match categories.find? (rowMatches dl) with
  | some row => row.1
  | none => "other"

/-- The fixed label set. -/
def categoryLabels : List String :=
  ["food", "transportation", "entertainment", "utilities", "shopping",
   "healthcare", "other"]

/-! ### Session state (`Expense`, `SessionState`) -/

/-- The `Expense` dataclass. -/
structure Expense where
  id : String
  amount : ℚ
  currency : String
  description : String
  category : String
  timestamp : String
  raw_input : String
deriving DecidableEq

/-- Model of `SessionState`. -/
structure SessionState where
  session_id : String
  expenses : List Expense
  created_at : String
deriving DecidableEq

/-- A fresh session (`SessionState.__init__`). -/
def mkSession (sid now : String) : SessionState :=
  { session_id := sid, expenses := [], created_at := now }

/-- Model of `SessionState.add_expense`. -/
def add_expense (s : SessionState) (e : Expense) : SessionState :=
  { s with expenses := s.expenses ++ [e] }

/-- Model of `SessionState.get_total`. -/
def get_total (s : SessionState) : ℚ :=
  (s.expenses.map Expense.amount).sum

/-- One step of the dict update `totals[category] = totals.get(category, 0)
+ amount`, on an insertion-ordered association list with unique keys. -/
def updateTotals : List (String × ℚ) → String → ℚ → List (String × ℚ)
  | [], cat, amt => [(cat, amt)]
  | p :: t, cat, amt =>
    if p.1 = cat then (p.1, p.2 + amt) :: t else p :: updateTotals t cat amt

/-- Model of `SessionState.get_category_totals`. -/
def get_category_totals (s : SessionState) : List (String × ℚ) :=
  s.expenses.foldl (fun t e => updateTotals t e.category e.amount) []

/-- Model of `SessionState.get_expense_count`. -/
def get_expense_count (s : SessionState) : ℕ :=
  s.expenses.length

/-! ### Decimal rendering for ids (`f"exp_{n}"`) -/

/-- Little-endian decimal digits of `n` (empty for 0), with explicit fuel
so that the recursion is structural; `n` itself is always enough fuel. -/
def natToDigitsRevFuel : ℕ → ℕ → List Char
  | 0, _ => []
  | _ + 1, 0 => []
  | fuel + 1, n + 1 =>
    Char.ofNat (48 + (n + 1) % 10) :: natToDigitsRevFuel fuel ((n + 1) / 10)

/-- Little-endian decimal digits of `n` (empty for 0). -/
def natToDigitsRev (n : ℕ) : List Char := natToDigitsRevFuel n n

/-- Decimal rendering of a natural number. -/
def natToStr (n : ℕ) : String :=
  if n = 0 then "0" else ⟨(natToDigitsRev n).reverse⟩

/-! ### Analyzer (`BudgetAnalyzerAgent`) -/

/-- Python `max(items, key=...)` over pairs: keeps the first of equals. -/
def firstMax (best : String × ℚ) : List (String × ℚ) → String × ℚ
  | [] => best
  | q :: l => if q.2 > best.2 then firstMax q l else firstMax best l

/-- The insight snapshot returned by `_generate_insights`. -/
structure Insights where
  total_spending : ℚ
  expense_count : ℕ
  category_breakdown : List (String × ℚ)
  top_category_name : String
  top_category_amount : ℚ
deriving DecidableEq

/-- Model of `BudgetAnalyzerAgent._generate_insights`. -/
def generate_insights (s : SessionState) : Insights :=
  let ct := get_category_totals s
  let top : String × ℚ :=
    match ct with
    | [] => ("none", 0)
    | p :: t => firstMax p t
  { total_spending := get_total s, expense_count := get_expense_count s,
    category_breakdown := ct, top_category_name := top.1,
    top_category_amount := top.2 }

/-- A classified candidate as the Analyzer receives it: a dict whose
required keys may be absent. -/
structure ClassifiedCandidate where
  amount : Option ℚ
  currency : Option String
  description : Option String
  category : Option String
  parsed_at : Option String
  raw_input : Option String
deriving DecidableEq

/-- The error kind surfaced when a required field is missing. -/
inductive AgentError where
  | validationError : String → AgentError
deriving DecidableEq

/-- Model of `BudgetAnalyzerAgent.execute`: read all required fields of the
candidate (a missing field aborts before any mutation), build the
`Expense` with the next sequential id, append it and compute insights.
Returns the outcome together with the session state after the call. -/
def analyzer_execute (s : SessionState) (c : ClassifiedCandidate) :
    Except AgentError (Expense × Insights) × SessionState :=
  match c.amount, c.currency, c.description, c.category, c.parsed_at, c.raw_input with
  | some amount, some currency, some descr, some category, some parsed_at, some raw =>
    let e : Expense :=
      { id := "exp_" ++ natToStr (s.expenses.length + 1), amount := amount,
        currency := currency, description := descr, category := category,
        timestamp := parsed_at, raw_input := raw }
    let s' := add_expense s e
    (.ok (e, generate_insights s'), s')
  | _, _, _, _, _, _ => (.error (.validationError "missing field"), s)

/-- Attach a category to a parsed expense (`CategoryClassifierAgent`),
yielding the dict passed to the Analyzer (all keys present). -/
def toCandidate (p : ParsedExpense) (cat : String) : ClassifiedCandidate :=
  { amount := some p.amount, currency := some p.currency,
    description := some p.description, category := some cat,
    parsed_at := some p.parsed_at, raw_input := some p.raw_input }

/-- Model of `PersonalFinanceAgentSystem.process_expense`: the sequential pipeline
parse → classify → analyze, threading the session state. -/
def process_expense (now : String) (s : SessionState) (text : String) :
    Except AgentError (Expense × Insights) × SessionState :=
  let p := parse now text
  analyzer_execute s (toCandidate p (classify p.description))

/-- Process a list of raw inputs in order. -/
def process_many (now : String) (s : SessionState) : List String → SessionState
  | [] => s
  | t :: ts => process_many now (process_expense now s t).2 ts

/-! ### Observability log (`AgentLogger`), with an explicit heap so that
Python's reference semantics for the returned list are visible. -/

/-- One log entry. -/
structure Event where
  timestamp : String
  agent : String
  event_type : String
  message : String
  data : List (String × String)
deriving DecidableEq

/-- The heap of list objects: a handle is an index into the heap. -/
abbrev LogHeap := List (List Event)

/-- An `AgentLogger` holds a handle to its `logs` list. -/
structure AgentLogger where
  logsRef : ℕ
deriving DecidableEq

/-- Dereference a list handle. -/
def heapRead (h : LogHeap) (r : ℕ) : List Event := h.getD r []

/-- Python `list.append` performed through a handle: mutates the heap cell. -/
def heapAppendAt (h : LogHeap) (r : ℕ) (e : Event) : LogHeap :=
  h.set r (heapRead h r ++ [e])

/-- Model of `AgentLogger.get_logs`: `return self.logs` — the handle itself, not a
copy. -/
def get_logs (lg : AgentLogger) : ℕ := lg.logsRef

/-- Model of `AgentLogger.log`: append an entry to the internal list. -/
def log_event (h : LogHeap) (lg : AgentLogger) (e : Event) : LogHeap :=
  heapAppendAt h lg.logsRef e

/-- The event sequence internally stored by the logger. -/
def stored_logs (h : LogHeap) (lg : AgentLogger) : List Event :=
  heapRead h lg.logsRef

/-! ### Derived definitions and concrete objects used in the theorems -/

/-- Run the Analyzer over a list of classified candidates in order. -/
def analyze_many (s : SessionState) : List ClassifiedCandidate → SessionState
  | [] => s
  | c :: cs => analyze_many (analyzer_execute s c).2 cs

/-- The keys of an insertion-ordered totals table. -/
def keys (t : List (String × ℚ)) : List String := t.map Prod.fst

/-- Shape of a token matched by the regex `\d+(?:\.\d{2})?`: one or more
digits, optionally followed by a point and two digits. -/
def NumeralShape (cs : List Char) : Prop :=
  (cs ≠ [] ∧ ∀ c ∈ cs, c.isDigit = true) ∨
  (∃ ds d1 d2, ds ≠ [] ∧ (∀ c ∈ ds, c.isDigit = true) ∧
    d1.isDigit = true ∧ d2.isDigit = true ∧ cs = ds ++ ['.', d1, d2])

/-- Value of a little-endian digit list (left inverse of `natToDigitsRev`). -/
def digitsRevVal : List Char → ℕ
  | [] => 0
  | c :: cs => (c.toNat - 48) + 10 * digitsRevVal cs

/-- A concrete food expense. -/
def eW1 : Expense :=
  { id := "exp_1", amount := 500, currency := "₹",
    description := "Spent ₹500 on groceries at DMart", category := "food",
    timestamp := "t1", raw_input := "Spent ₹500 on groceries at DMart" }

/-- A concrete transportation expense. -/
def eW2 : Expense :=
  { id := "exp_2", amount := 80, currency := "₹",
    description := "Auto rickshaw ride ₹80", category := "transportation",
    timestamp := "t2", raw_input := "Auto rickshaw ride ₹80" }

/-- A concrete session state holding `eW1` and `eW2`. -/
def sW : SessionState :=
  { session_id := "s", expenses := [eW1, eW2], created_at := "t0" }

/-- A classified candidate with the `amount` key missing. -/
def cW : ClassifiedCandidate :=
  { amount := none, currency := some "₹", description := some "d",
    category := some "food", parsed_at := some "t", raw_input := some "d" }

/-- A complete classified candidate. -/
def cF : ClassifiedCandidate :=
  { amount := some 10, currency := some "₹", description := some "chai",
    category := some "food", parsed_at := some "t", raw_input := some "chai" }

/-- The expense record the Analyzer builds from `cF` on a fresh session. -/
def rF : Expense :=
  { id := "exp_1", amount := 10, currency := "₹", description := "chai",
    category := "food", timestamp := "t", raw_input := "chai" }

/-- The session state after finalizing `cF` on a fresh session. -/
def sF : SessionState :=
  { session_id := "s", expenses := [rF], created_at := "t0" }

/-- A concrete log event. -/
def evW : Event :=
  { timestamp := "t", agent := "a", event_type := "info",
    message := "m", data := [] }

/-! ### Classifier lemmas -/

lemma classify_eq_of_find?_some {d : String} {row : String × List String}
    (h : categories.find? (rowMatches (strLower d)) = some row) :
    classify d = row.1 := by
  simp only [classify, h]

lemma classify_eq_other_of_find?_none {d : String}
    (h : categories.find? (rowMatches (strLower d)) = none) :
    classify d = "other" := by
  simp only [classify, h]

/-- C2: `classify` is total and deterministic: it always returns a label from
the fixed set; categories are tried in declaration order and the first row
with a keyword occurring (case-insensitively) as a substring of the
description is returned; if no row matches, the catch-all `other` is
returned. -/
theorem classify_total_first_match :
    (∀ d : String, classify d ∈ categoryLabels) ∧
    (∀ d₁ d₂ : String, d₁ = d₂ → classify d₁ = classify d₂) ∧
    (∀ (d : String) (pre : List (String × List String))
       (row : String × List String) (post : List (String × List String)),
       categories = pre ++ row :: post →
       rowMatches (strLower d) row = true →
       (∀ q ∈ pre, rowMatches (strLower d) q = false) →
       classify d = row.1) ∧
    (∀ d : String, (∀ row ∈ categories, rowMatches (strLower d) row = false) →
       classify d = "other") := by
  refine ⟨?_, ?_, ?_, ?_⟩
  · intro d
    rcases h : categories.find? (rowMatches (strLower d)) with _ | row
    · rw [classify_eq_other_of_find?_none h]
      decide
    · have hm : row ∈ categories := List.mem_of_find?_eq_some h
      have h1 : row.1 ∈ categories.map Prod.fst := List.mem_map_of_mem _ hm
      have he : categories.map Prod.fst = categoryLabels := rfl
      rw [classify_eq_of_find?_some h]
      exact he ▸ h1
  · intro d₁ d₂ h
    rw [h]
  · intro d pre row post hcat hrow hpre
    apply classify_eq_of_find?_some
    rw [hcat, List.find?_append]
    have hnone : pre.find? (rowMatches (strLower d)) = none :=
      List.find?_eq_none.mpr (fun x hx => by simp [hpre x hx])
    rw [hnone, List.find?_cons_of_pos _ hrow]
    rfl
  · intro d h
    exact classify_eq_other_of_find?_none
      (List.find?_eq_none.mpr (fun x hx => by simp [h x hx]))

/-- Witness for C2: concrete evaluations through `classify_total_first_match`. -/
theorem classify_total_first_match_witness :
    classify "chai latte" ∈ categoryLabels ∧
    classify "xyz unspecified item" = "other" ∧
    classify "uber ride" = "transportation" :=
  ⟨classify_total_first_match.1 "chai latte",
   classify_total_first_match.2.2.2 "xyz unspecified item" (by decide),
   classify_total_first_match.2.2.1 "uber ride"
     [("food", foodKeywords)] ("transportation", transportationKeywords)
     [("entertainment", entertainmentKeywords),
      ("utilities", utilitiesKeywords),
      ("shopping", shoppingKeywords),
      ("healthcare", healthcareKeywords),
      ("other", [])]
     rfl (by decide) (by decide)⟩

/-- C9 counterexample: `"gas and chai"` contains the substring `gas`
(case-insensitively) yet `classify` returns `food`, not `transportation`,
because the food keyword `chai` is tried first. -/
theorem gas_claim_counterexample :
    kwIn "gas" (strLower "gas and chai") = true ∧
    classify "gas and chai" = "food" := by
  decide

/-- C9 (amended): `gas` belongs to both the transportation and the utilities
keyword sets, and transportation is declared before utilities; hence for
every description containing `gas` (case-insensitively) `classify` returns
`food` or `transportation` — `transportation` whenever no food keyword also
matches — and can never return `utilities`. -/
theorem gas_keyword_precedence :
    ("gas" ∈ transportationKeywords ∧ "gas" ∈ utilitiesKeywords ∧
      categories.get? 1 = some ("transportation", transportationKeywords) ∧
      categories.get? 3 = some ("utilities", utilitiesKeywords)) ∧
    (∀ d : String, kwIn "gas" (strLower d) = true →
      (classify d = "food" ∨ classify d = "transportation") ∧
      (rowMatches (strLower d) ("food", foodKeywords) = false →
        classify d = "transportation") ∧
      classify d ≠ "utilities") := by
  refine ⟨by refine ⟨by decide, by decide, rfl, rfl⟩, ?_⟩
  intro d hgas
  have htr : rowMatches (strLower d) ("transportation", transportationKeywords) = true := by
    simp only [rowMatches, List.any_eq_true]
    exact ⟨"gas", by decide, hgas⟩
  cases hf : rowMatches (strLower d) ("food", foodKeywords) with
  | false =>
    have hfind : categories.find? (rowMatches (strLower d))
        = some ("transportation", transportationKeywords) := by
      show List.find? _ (("food", foodKeywords) :: ("transportation", transportationKeywords) :: _) = _
      rw [List.find?_cons_of_neg _ (by simp [hf]), List.find?_cons_of_pos _ htr]
    have hcl : classify d = "transportation" := classify_eq_of_find?_some hfind
    refine ⟨Or.inr hcl, fun _ => hcl, ?_⟩
    rw [hcl]; decide
  | true =>
    have hfind : categories.find? (rowMatches (strLower d))
        = some ("food", foodKeywords) := by
      show List.find? _ (("food", foodKeywords) :: _) = _
      rw [List.find?_cons_of_pos _ hf]
    have hcl : classify d = "food" := classify_eq_of_find?_some hfind
    refine ⟨Or.inl hcl, ?_, ?_⟩
    · intro h
      simp at h
    · rw [hcl]; decide

/-- Witness for C9 (amended) at the description `"gas bill"`. -/
theorem gas_keyword_precedence_witness :
    kwIn "gas" (strLower "gas bill") = true ∧
    classify "gas bill" = "transportation" ∧
    classify "gas bill" ≠ "utilities" :=
  ⟨by decide,
   (gas_keyword_precedence.2 "gas bill" (by decide)).2.1 (by decide),
   (gas_keyword_precedence.2 "gas bill" (by decide)).2.2⟩

/-! ### Insight lemmas -/

lemma firstMax_le (best : String × ℚ) (l : List (String × ℚ)) :
    best.2 ≤ (firstMax best l).2 ∧ ∀ q ∈ l, q.2 ≤ (firstMax best l).2 := by
  induction l generalizing best with
  | nil => exact ⟨le_refl _, by simp⟩
  | cons q t ih =>
    simp only [firstMax]
    by_cases h : q.2 > best.2
    · rw [if_pos h]
      refine ⟨le_trans (le_of_lt h) (ih q).1, ?_⟩
      intro p hp
      rcases List.mem_cons.mp hp with rfl | hp
      · exact (ih p).1
      · exact (ih q).2 p hp
    · rw [if_neg h]
      refine ⟨(ih best).1, ?_⟩
      intro p hp
      rcases List.mem_cons.mp hp with rfl | hp
      · exact le_trans (le_of_not_lt h) (ih best).1
      · exact (ih best).2 p hp

lemma firstMax_split (best : String × ℚ) (l : List (String × ℚ)) :
    ∃ l₁ l₂, best :: l = l₁ ++ firstMax best l :: l₂ ∧
      ∀ q ∈ l₁, q.2 < (firstMax best l).2 := by
  induction l generalizing best with
  | nil => exact ⟨[], [], rfl, by simp⟩
  | cons q t ih =>
    simp only [firstMax]
    by_cases h : q.2 > best.2
    · rw [if_pos h]
      obtain ⟨l₁, l₂, heq, hlt⟩ := ih q
      refine ⟨best :: l₁, l₂, by rw [List.cons_append, ← heq], ?_⟩
      intro p hp
      rcases List.mem_cons.mp hp with rfl | hp
      · exact lt_of_lt_of_le h (firstMax_le q t).1
      · exact hlt p hp
    · rw [if_neg h]
      obtain ⟨l₁, l₂, heq, hlt⟩ := ih best
      cases l₁ with
      | nil =>
        simp only [List.nil_append] at heq
        injection heq with h1 h2
        refine ⟨[], q :: l₂, ?_, by simp⟩
        rw [List.nil_append, ← h1, ← h2]
      | cons x l₁ =>
        rw [List.cons_append] at heq
        injection heq with h1 h2
        have hb := hlt x (List.mem_cons_self x l₁)
        rw [← h1] at hb
        refine ⟨best :: q :: l₁, l₂, ?_, ?_⟩
        · conv_lhs => rw [h2]
          simp
        · intro p hp
          rcases List.mem_cons.mp hp with rfl | hp
          · exact hb
          · rcases List.mem_cons.mp hp with rfl | hp
            · exact lt_of_le_of_lt (le_of_not_lt h) hb
            · exact hlt p (List.mem_cons_of_mem x hp)

/-- C4: the insight snapshot's top category names an entry of
`get_category_totals` of maximal amount, ties broken by first insertion
order (all strictly-smaller entries precede it); an empty breakdown
yields name `none` and amount 0. -/
theorem top_category_spec (s : SessionState) :
    (get_category_totals s = [] →
      (generate_insights s).top_category_name = "none" ∧
      (generate_insights s).top_category_amount = 0) ∧
    (get_category_totals s ≠ [] →
      (∃ l₁ l₂, get_category_totals s =
          l₁ ++ ((generate_insights s).top_category_name,
                 (generate_insights s).top_category_amount) :: l₂ ∧
        ∀ q ∈ l₁, q.2 < (generate_insights s).top_category_amount) ∧
      ∀ q ∈ get_category_totals s, q.2 ≤ (generate_insights s).top_category_amount) := by
  constructor
  · intro h
    constructor <;> simp [generate_insights, h]
  · intro h
    rcases hct : get_category_totals s with _ | ⟨p, t⟩
    · exact absurd hct h
    have hname : (generate_insights s).top_category_name = (firstMax p t).1 := by
      simp [generate_insights, hct]
    have hamt : (generate_insights s).top_category_amount = (firstMax p t).2 := by
      simp [generate_insights, hct]
    rw [hname, hamt]
    refine ⟨?_, ?_⟩
    · obtain ⟨l₁, l₂, heq, hlt⟩ := firstMax_split p t
      refine ⟨l₁, l₂, ?_, hlt⟩
      rw [Prod.mk.eta]
      exact heq
    · intro q hq
      rcases List.mem_cons.mp hq with rfl | hq
      · exact (firstMax_le q t).1
      · exact (firstMax_le p t).2 q hq

/-- Witness for C4 at the concrete session `sW`. -/
theorem top_category_spec_witness :
    get_category_totals sW ≠ [] ∧
    (∃ l₁ l₂, get_category_totals sW =
        l₁ ++ ((generate_insights sW).top_category_name,
               (generate_insights sW).top_category_amount) :: l₂ ∧
      ∀ q ∈ l₁, q.2 < (generate_insights sW).top_category_amount) ∧
    ∀ q ∈ get_category_totals sW, q.2 ≤ (generate_insights sW).top_category_amount :=
  ⟨by decide, ((top_category_spec sW).2 (by decide)).1,
   ((top_category_spec sW).2 (by decide)).2⟩

/-! ### Ledger aggregate lemmas -/

lemma valsSum_updateTotals (t : List (String × ℚ)) (cat : String) (amt : ℚ) :
    ((updateTotals t cat amt).map Prod.snd).sum = (t.map Prod.snd).sum + amt := by
  induction t with
  | nil => simp [updateTotals]
  | cons p t ih =>
    by_cases h : p.1 = cat
    · simp only [updateTotals, if_pos h, List.map_cons, List.sum_cons]
      ring
    · simp only [updateTotals, if_neg h, List.map_cons, List.sum_cons, ih]
      ring

lemma keys_updateTotals (t : List (String × ℚ)) (cat : String) (amt : ℚ) :
    keys (updateTotals t cat amt) =
      if cat ∈ keys t then keys t else keys t ++ [cat] := by
  induction t with
  | nil => simp [updateTotals, keys]
  | cons p t ih =>
    by_cases h : p.1 = cat
    · simp [updateTotals, keys, if_pos h, h]
    · have hcons : keys (updateTotals (p :: t) cat amt)
          = p.1 :: keys (updateTotals t cat amt) := by
        simp [updateTotals, if_neg h, keys]
      rw [hcons, ih]
      by_cases hmem : cat ∈ keys t
      · rw [if_pos hmem,
          if_pos (show cat ∈ keys (p :: t) from List.mem_cons_of_mem _ hmem)]
        rfl
      · have h2 : cat ∉ keys (p :: t) := by
          simp only [keys, List.map_cons, List.mem_cons]
          rintro (hc | hc)
          · exact h hc.symm
          · exact hmem hc
        rw [if_neg hmem, if_neg h2]
        rfl

lemma catTotals_sum (es : List Expense) (t : List (String × ℚ)) :
    ((es.foldl (fun t e => updateTotals t e.category e.amount) t).map Prod.snd).sum
      = (t.map Prod.snd).sum + (es.map Expense.amount).sum := by
  induction es generalizing t with
  | nil => simp
  | cons e es ih =>
    simp only [List.foldl_cons, List.map_cons, List.sum_cons]
    rw [ih, valsSum_updateTotals]
    ring

lemma catTotals_keys_mem (es : List Expense) (t : List (String × ℚ)) (k : String) :
    k ∈ keys (es.foldl (fun t e => updateTotals t e.category e.amount) t)
      ↔ k ∈ keys t ∨ k ∈ es.map Expense.category := by
  induction es generalizing t with
  | nil => simp
  | cons e es ih =>
    simp only [List.foldl_cons, List.map_cons, List.mem_cons]
    rw [ih, keys_updateTotals]
    by_cases h : e.category ∈ keys t
    · rw [if_pos h]
      constructor
      · rintro (hk | hk)
        · exact Or.inl hk
        · exact Or.inr (Or.inr hk)
      · rintro (hk | rfl | hk)
        · exact Or.inl hk
        · exact Or.inl h
        · exact Or.inr hk
    · rw [if_neg h]
      simp only [List.mem_append, List.mem_singleton]
      tauto

lemma expenses_foldl_add (s : SessionState) (es : List Expense) :
    (es.foldl add_expense s).expenses = s.expenses ++ es := by
  induction es generalizing s with
  | nil => simp
  | cons e es ih =>
    simp only [List.foldl_cons]
    rw [ih]
    simp [add_expense]

/-- C1: after any sequence of appends to a fresh ledger, the count equals
the number of appends, the total equals the sum of the appended amounts,
the category totals sum to the total, and the totals table covers exactly
the categories present among the stored records. -/
theorem ledger_invariants (sid now : String) (es : List Expense) :
    get_expense_count (es.foldl add_expense (mkSession sid now)) = es.length ∧
    get_total (es.foldl add_expense (mkSession sid now)) = (es.map Expense.amount).sum ∧
    ((get_category_totals (es.foldl add_expense (mkSession sid now))).map Prod.snd).sum
      = get_total (es.foldl add_expense (mkSession sid now)) ∧
    ∀ c : String,
      c ∈ keys (get_category_totals (es.foldl add_expense (mkSession sid now))) ↔
        c ∈ es.map Expense.category := by
  have hexp : (es.foldl add_expense (mkSession sid now)).expenses = es := by
    rw [expenses_foldl_add]
    rfl
  refine ⟨?_, ?_, ?_, ?_⟩
  · simp [get_expense_count, hexp]
  · simp [get_total, hexp]
  · rw [get_category_totals, hexp, catTotals_sum]
    simp [get_total, hexp]
  · intro c
    rw [get_category_totals, hexp, catTotals_keys_mem]
    simp [keys]

/-- C6: an analyzer call on a classified candidate missing a required field
fails with a `validationError` and returns the session state unchanged —
no record is appended, and count and totals are untouched. -/
theorem validation_error_frame (s : SessionState) (c : ClassifiedCandidate)
    (h : c.amount = none ∨ c.currency = none ∨ c.description = none ∨
         c.category = none ∨ c.parsed_at = none ∨ c.raw_input = none) :
    (∃ msg, (analyzer_execute s c).1 = .error (.validationError msg)) ∧
    (analyzer_execute s c).2 = s ∧
    (analyzer_execute s c).2.expenses = s.expenses ∧
    get_expense_count (analyzer_execute s c).2 = get_expense_count s ∧
    get_total (analyzer_execute s c).2 = get_total s ∧
    get_category_totals (analyzer_execute s c).2 = get_category_totals s := by
  obtain ⟨a, b, d, e, f, g⟩ := c
  have herr : analyzer_execute s ⟨a, b, d, e, f, g⟩
      = (.error (.validationError "missing field"), s) := by
    cases a <;> cases b <;> cases d <;> cases e <;> cases f <;> cases g <;>
      first
        | rfl
        | simp at h
  rw [herr]
  exact ⟨⟨"missing field", rfl⟩, rfl, rfl, rfl, rfl, rfl⟩

/-- Witness for C6 at the candidate `cW` and session `sW`. -/
theorem validation_error_frame_witness :
    cW.amount = none ∧
    (∃ msg, (analyzer_execute sW cW).1 = .error (.validationError msg)) ∧
    (analyzer_execute sW cW).2 = sW :=
  ⟨rfl, (validation_error_frame sW cW (Or.inl rfl)).1,
   (validation_error_frame sW cW (Or.inl rfl)).2.1⟩

/-- C8 counterexample: `get_logs` hands out the internal list itself, so an
append performed through the returned handle changes the internally stored
event sequence — refuting "mutating the value returned by `get_logs()` does
not change the log's internally stored event sequence" on the concrete
one-logger heap `[[]]`. -/
theorem get_logs_mutation_counterexample :
    stored_logs (heapAppendAt [[]] (get_logs ⟨0⟩) evW) ⟨0⟩ ≠
      stored_logs [[]] ⟨0⟩ := by
  decide

/-- C8 (amended): `get_logs` returns the logger's internal list handle
itself (not a copy), so a mutation performed through the returned handle is
exactly a mutation of the stored event sequence. -/
theorem get_logs_returns_alias (h : LogHeap) (lg : AgentLogger) (e : Event)
    (hr : lg.logsRef < h.length) :
    get_logs lg = lg.logsRef ∧
    stored_logs (heapAppendAt h (get_logs lg) e) lg = stored_logs h lg ++ [e] := by
  refine ⟨rfl, ?_⟩
  simp [stored_logs, heapAppendAt, heapRead, get_logs,
    List.getD_eq_getElem?_getD, List.getElem?_set_self hr]

/-- Witness for C8 (amended) on the one-logger heap `[[]]`. -/
theorem get_logs_returns_alias_witness :
    (⟨0⟩ : AgentLogger).logsRef < ([[]] : LogHeap).length ∧
    get_logs ⟨0⟩ = (⟨0⟩ : AgentLogger).logsRef ∧
    stored_logs (heapAppendAt [[]] (get_logs ⟨0⟩) evW) ⟨0⟩ =
      stored_logs ([[]] : LogHeap) ⟨0⟩ ++ [evW] :=
  ⟨by decide, (get_logs_returns_alias [[]] ⟨0⟩ evW (by decide)).1,
   (get_logs_returns_alias [[]] ⟨0⟩ evW (by decide)).2⟩

/-! ### Sequential id lemmas -/

lemma digitsRevVal_fuel (fuel : ℕ) : ∀ n : ℕ, n ≤ fuel →
    digitsRevVal (natToDigitsRevFuel fuel n) = n := by
  induction fuel with
  | zero =>
    intro n h
    interval_cases n
    rfl
  | succ fuel ih =>
    intro n h
    match n with
    | 0 => rfl
    | m + 1 =>
      simp only [natToDigitsRevFuel, digitsRevVal]
      have hdiv : (m + 1) / 10 ≤ fuel := by
        have := Nat.div_lt_self (Nat.succ_pos m) (show 1 < 10 by norm_num)
        omega
      rw [ih _ hdiv]
      have hmod : (m + 1) % 10 < 10 := Nat.mod_lt _ (by norm_num)
      have hchar : ∀ r : ℕ, r < 10 → (Char.ofNat (48 + r)).toNat = 48 + r := by
        intro r hr
        interval_cases r <;> rfl
      rw [hchar _ hmod]
      omega

lemma digitsRevVal_natToDigitsRev (n : ℕ) :
    digitsRevVal (natToDigitsRev n) = n :=
  digitsRevVal_fuel n n (le_refl n)

lemma natToStr_inj_pos {a b : ℕ} (ha : 0 < a) (hb : 0 < b)
    (h : natToStr a = natToStr b) : a = b := by
  unfold natToStr at h
  rw [if_neg (Nat.pos_iff_ne_zero.mp ha), if_neg (Nat.pos_iff_ne_zero.mp hb)] at h
  have hdata : (natToDigitsRev a).reverse = (natToDigitsRev b).reverse :=
    congrArg String.data h
  have hrev : natToDigitsRev a = natToDigitsRev b := List.reverse_injective hdata
  calc a = digitsRevVal (natToDigitsRev a) := (digitsRevVal_natToDigitsRev a).symm
    _ = digitsRevVal (natToDigitsRev b) := by rw [hrev]
    _ = b := digitsRevVal_natToDigitsRev b

lemma expId_inj : Function.Injective (fun i : ℕ => "exp_" ++ natToStr (i + 1)) := by
  intro i j h
  simp only at h
  have hdata := congrArg String.data h
  simp only [String.data_append] at hdata
  have hsuffix := List.append_cancel_left hdata
  have hstr : natToStr (i + 1) = natToStr (j + 1) := by
    cases hni : natToStr (i + 1) with
    | mk di =>
      cases hnj : natToStr (j + 1) with
      | mk dj =>
        rw [hni, hnj] at hsuffix
        simp only at hsuffix
        rw [hsuffix]
  have := natToStr_inj_pos (Nat.succ_pos i) (Nat.succ_pos j) hstr
  omega

lemma analyzer_execute_cases (s : SessionState) (c : ClassifiedCandidate) :
    (analyzer_execute s c).2 = s ∨
    ∃ r : Expense, (analyzer_execute s c).2 = add_expense s r ∧
      r.id = "exp_" ++ natToStr (s.expenses.length + 1) := by
  obtain ⟨a, b, d, e, f, g⟩ := c
  cases a <;> cases b <;> cases d <;> cases e <;> cases f <;> cases g <;>
    first
      | exact Or.inl rfl
      | exact Or.inr ⟨_, rfl, rfl⟩

lemma analyzer_execute_ok (s : SessionState) (c : ClassifiedCandidate)
    (r : Expense) (ins : Insights) (s' : SessionState)
    (hok : analyzer_execute s c = (.ok (r, ins), s')) :
    r.id = "exp_" ++ natToStr (s.expenses.length + 1) ∧
    s'.expenses = s.expenses ++ [r] := by
  obtain ⟨a, b, d, e, f, g⟩ := c
  cases a <;> cases b <;> cases d <;> cases e <;> cases f <;> cases g <;>
    simp only [analyzer_execute, Prod.mk.injEq, reduceCtorEq, false_and] at hok
  obtain ⟨hr, hs⟩ := hok
  simp only [Except.ok.injEq, Prod.mk.injEq] at hr
  obtain ⟨hr1, _⟩ := hr
  subst hr1
  subst hs
  exact ⟨rfl, rfl⟩

lemma analyze_many_ids (cs : List ClassifiedCandidate) (s : SessionState)
    (hs : s.expenses.map Expense.id
        = (List.range s.expenses.length).map (fun i => "exp_" ++ natToStr (i + 1))) :
    (analyze_many s cs).expenses.map Expense.id
      = (List.range (analyze_many s cs).expenses.length).map
          (fun i => "exp_" ++ natToStr (i + 1)) := by
  induction cs generalizing s with
  | nil => exact hs
  | cons c cs ih =>
    rw [analyze_many]
    apply ih
    rcases analyzer_execute_cases s c with hcase | ⟨r, hst, hid⟩
    · rw [hcase]
      exact hs
    · rw [hst]
      show (s.expenses ++ [r]).map Expense.id
        = (List.range (s.expenses ++ [r]).length).map (fun i => "exp_" ++ natToStr (i + 1))
      rw [List.map_append, hs, List.length_append, List.length_singleton,
        List.range_succ, List.map_append]
      simp [hid]

/-- C5: the Analyzer assigns each appended record the next sequential id
`count_before_append + 1` and appends it at the end (insertion order);
over any run of analyzer calls from a fresh session, the stored ids are
exactly `exp_1, exp_2, …` in positional order — strictly increasing and
never reused. -/
theorem ledger_sequential_ids :
    (∀ (s : SessionState) (c : ClassifiedCandidate) (r : Expense)
       (ins : Insights) (s' : SessionState),
       analyzer_execute s c = (.ok (r, ins), s') →
       r.id = "exp_" ++ natToStr (get_expense_count s + 1) ∧
       s'.expenses = s.expenses ++ [r]) ∧
    (∀ (sid now : String) (cs : List ClassifiedCandidate),
       (analyze_many (mkSession sid now) cs).expenses.map Expense.id
         = (List.range (analyze_many (mkSession sid now) cs).expenses.length).map
             (fun i => "exp_" ++ natToStr (i + 1)) ∧
       ((analyze_many (mkSession sid now) cs).expenses.map Expense.id).Nodup) := by
  constructor
  · intro s c r ins s' hok
    exact analyzer_execute_ok s c r ins s' hok
  · intro sid now cs
    have h := analyze_many_ids cs (mkSession sid now) rfl
    refine ⟨h, ?_⟩
    rw [h]
    exact List.Nodup.map expId_inj (List.nodup_range _)

/-- Witness for C5: finalizing the concrete candidate `cF` on a fresh
session assigns id `exp_1` and appends the record at the end. -/
theorem ledger_sequential_ids_witness :
    rF.id = "exp_" ++ natToStr (get_expense_count (mkSession "s" "t0") + 1) ∧
    sF.expenses = (mkSession "s" "t0").expenses ++ [rF] :=
  ledger_sequential_ids.1 (mkSession "s" "t0") cF rF (generate_insights sF) sF rfl

/-! ### Extractor lemmas -/

lemma digit_not_space {c : Char} (h : c.isDigit = true) : isSpaceChar c = false := by
  rcases hsp : isSpaceChar c with _ | _
  · rfl
  · exfalso
    simp only [isSpaceChar, Bool.or_eq_true, decide_eq_true_eq] at hsp
    rcases hsp with ((((h1 | h1) | h1) | h1) | h1) | h1 <;>
      (subst h1; exact absurd h (by decide))

lemma drop_takeWhile_length (p : Char → Bool) (l : List Char) :
    l.drop (l.takeWhile p).length = l.dropWhile p := by
  induction l with
  | nil => rfl
  | cons c l ih =>
    rw [List.takeWhile_cons, List.dropWhile_cons]
    by_cases h : p c
    · simp [h, ih]
    · simp [h]

lemma numeralAt_cons_not_digit {c : Char} (cs : List Char)
    (hc : c.isDigit = false) : numeralAt (c :: cs) = none := by
  simp [numeralAt, List.takeWhile_cons, hc]

lemma numeralAt_cons_digit_isSome {d : Char} (rest : List Char)
    (hd : d.isDigit = true) : (numeralAt (d :: rest)).isSome := by
  unfold numeralAt
  rw [List.takeWhile_cons, if_pos hd]
  simp only [List.isEmpty_cons, Bool.false_eq_true, if_false]
  split
  · split <;> rfl
  · rfl

lemma numeralAt_sound {cs num : List Char} (h : numeralAt cs = some num) :
    ∃ rest, cs = num ++ rest ∧ NumeralShape num := by
  unfold numeralAt at h
  by_cases he : (cs.takeWhile Char.isDigit).isEmpty
  · rw [if_pos he] at h
    cases h
  · rw [if_neg he] at h
    have hd : ∀ c ∈ cs.takeWhile Char.isDigit, c.isDigit = true :=
      fun c hc => List.mem_takeWhile_imp hc
    have hne : cs.takeWhile Char.isDigit ≠ [] := by
      intro hnil
      rw [hnil] at he
      exact he rfl
    have hsplit : cs = cs.takeWhile Char.isDigit
        ++ cs.drop (cs.takeWhile Char.isDigit).length := by
      rw [drop_takeWhile_length]
      exact (List.takeWhile_append_dropWhile Char.isDigit cs).symm
    split at h
    next d1 d2 tail hdrop =>
      by_cases hdd : d1.isDigit && d2.isDigit
      · rw [if_pos hdd] at h
        injection h with h
        subst h
        rw [Bool.and_eq_true] at hdd
        refine ⟨tail, ?_, ?_⟩
        · calc cs = cs.takeWhile Char.isDigit
              ++ cs.drop (cs.takeWhile Char.isDigit).length := hsplit
            _ = cs.takeWhile Char.isDigit ++ ('.' :: d1 :: d2 :: tail) := by rw [hdrop]
            _ = (cs.takeWhile Char.isDigit ++ ['.', d1, d2]) ++ tail := by simp
        · exact Or.inr ⟨cs.takeWhile Char.isDigit, d1, d2, hne, hd, hdd.1, hdd.2, rfl⟩
      · rw [if_neg hdd] at h
        injection h with h
        subst h
        exact ⟨_, hsplit, Or.inl ⟨hne, hd⟩⟩
    next =>
      injection h with h
      subst h
      exact ⟨_, hsplit, Or.inl ⟨hne, hd⟩⟩

lemma findNumeral_eq_none {cs : List Char} (h : ∀ c ∈ cs, c.isDigit = false) :
    findNumeral cs = none := by
  induction cs with
  | nil => rfl
  | cons c cs ih =>
    rw [findNumeral, numeralAt_cons_not_digit cs (h c (List.mem_cons_self c cs))]
    exact ih (fun x hx => h x (List.mem_cons_of_mem c hx))

lemma findSymAmount_eq_none (sym : Char) {cs : List Char}
    (h : ∀ c ∈ cs, c.isDigit = false) : findSymAmount sym cs = none := by
  induction cs with
  | nil => rfl
  | cons c cs ih =>
    have hrest : ∀ x ∈ cs, x.isDigit = false :=
      fun x hx => h x (List.mem_cons_of_mem c hx)
    rw [findSymAmount]
    by_cases hc : c = sym
    · rw [if_pos hc]
      have hna : numeralAt (cs.dropWhile isSpaceChar) = none := by
        rcases hdw : cs.dropWhile isSpaceChar with _ | ⟨x, xs⟩
        · rfl
        · have hx : x ∈ cs := by
            have : x ∈ cs.dropWhile isSpaceChar := by
              rw [hdw]
              exact List.mem_cons_self x xs
            exact (List.dropWhile_sublist isSpaceChar).subset this
          exact numeralAt_cons_not_digit xs (hrest x hx)
      rw [hna]
      exact ih hrest
    · rw [if_neg hc]
      exact ih hrest

lemma findSymAmount_sound (sym : Char) (cs : List Char) : ∀ {num : List Char},
    findSymAmount sym cs = some num →
    ∃ pre ws rest, cs = pre ++ sym :: (ws ++ (num ++ rest)) ∧
      (∀ c ∈ ws, isSpaceChar c = true) ∧ NumeralShape num := by
  induction cs with
  | nil =>
    intro num h
    cases h
  | cons c cs ih =>
    intro num h
    rw [findSymAmount] at h
    by_cases hc : c = sym
    · rw [if_pos hc] at h
      rcases hna : numeralAt (cs.dropWhile isSpaceChar) with _ | num'
      · rw [hna] at h
        obtain ⟨pre, ws, rest, hcs, hws, hshape⟩ := ih h
        exact ⟨c :: pre, ws, rest, by rw [List.cons_append, hcs], hws, hshape⟩
      · rw [hna] at h
        injection h with h
        subst h
        obtain ⟨restN, hsplitN, hshape⟩ := numeralAt_sound hna
        refine ⟨[], cs.takeWhile isSpaceChar, restN, ?_,
          fun x hx => List.mem_takeWhile_imp hx, hshape⟩
        rw [List.nil_append, hc]
        congr 1
        rw [← hsplitN]
        exact (List.takeWhile_append_dropWhile isSpaceChar cs).symm
    · rw [if_neg hc] at h
      obtain ⟨pre, ws, rest, hcs, hws, hshape⟩ := ih h
      exact ⟨c :: pre, ws, rest, by rw [List.cons_append, hcs], hws, hshape⟩

lemma findSymAmount_isSome (sym : Char) (pre ws rest : List Char) (d : Char)
    (hws : ∀ c ∈ ws, isSpaceChar c = true) (hd : d.isDigit = true) :
    (findSymAmount sym (pre ++ sym :: (ws ++ d :: rest))).isSome := by
  induction pre with
  | nil =>
    rw [List.nil_append, findSymAmount, if_pos rfl]
    have hdw : (ws ++ d :: rest).dropWhile isSpaceChar = d :: rest := by
      rw [List.dropWhile_append_of_pos hws, List.dropWhile_cons,
        digit_not_space hd]
      simp
    rw [hdw]
    rcases hna : numeralAt (d :: rest) with _ | num
    · have hcontra := numeralAt_cons_digit_isSome rest hd
      rw [hna] at hcontra
      cases hcontra
    · rfl
  | cons c pre ih =>
    rw [List.cons_append, findSymAmount]
    by_cases hc : c = sym
    · rw [if_pos hc]
      rcases hna : numeralAt ((pre ++ sym :: (ws ++ d :: rest)).dropWhile isSpaceChar)
          with _ | num
      · exact ih
      · rfl
    · rw [if_neg hc]
      exact ih

/-- C3: whenever the text contains a decimal numeral preceded (up to
whitespace) by the primary symbol `₹`, `parse` reports currency `₹` — even
if a `$`-prefixed or bare numeral is also present — and the amount is the
decimal value of an actual `₹`-prefixed numeral occurring in the text. -/
theorem rupee_priority (now text : String)
    (pre ws rest : List Char) (d : Char)
    (hdec : text.data = pre ++ '₹' :: (ws ++ d :: rest))
    (hws : ∀ c ∈ ws, isSpaceChar c = true) (hd : d.isDigit = true) :
    (parse now text).currency = "₹" ∧
    ∃ num pre' ws' rest',
      text.data = pre' ++ '₹' :: (ws' ++ (num ++ rest')) ∧
      (∀ c ∈ ws', isSpaceChar c = true) ∧ NumeralShape num ∧
      (parse now text).amount = decVal num := by
  have hsome : (findSymAmount '₹' text.data).isSome := by
    rw [hdec]
    exact findSymAmount_isSome '₹' pre ws rest d hws hd
  rcases hfs : findSymAmount '₹' text.data with _ | num
  · rw [hfs] at hsome
    cases hsome
  · obtain ⟨pre', ws', rest', hsplit, hws', hshape⟩ :=
      findSymAmount_sound '₹' text.data hfs
    have hcur : (parse now text).currency = "₹" := by
      simp [parse, hfs]
    have hamt : (parse now text).amount = decVal num := by
      simp [parse, hfs]
    exact ⟨hcur, num, pre', ws', rest', hsplit, hws', hshape, hamt⟩

/-- Witness for C3 at `"a ₹ 12.50 and $99"`. -/
theorem rupee_priority_witness :
    (parse "t" "a ₹ 12.50 and $99").currency = "₹" ∧
    ∃ num pre' ws' rest',
      ("a ₹ 12.50 and $99" : String).data = pre' ++ '₹' :: (ws' ++ (num ++ rest')) ∧
      (∀ c ∈ ws', isSpaceChar c = true) ∧ NumeralShape num ∧
      (parse "t" "a ₹ 12.50 and $99").amount = decVal num :=
  rupee_priority "t" "a ₹ 12.50 and $99" ['a', ' '] [' ']
    ("2.50 and $99").data '1' (by decide) (by decide) (by decide)

/-- C7: on a text with no digit (hence no decimal numeral), `parse` returns
amount 0 and the default currency `₹`; and on every text, the returned
description and raw input are the input text verbatim. -/
theorem parse_defaults_and_verbatim :
    (∀ now text : String, (∀ c ∈ text.data, c.isDigit = false) →
      (parse now text).amount = 0 ∧ (parse now text).currency = "₹") ∧
    (∀ now text : String,
      (parse now text).description = text ∧ (parse now text).raw_input = text) := by
  constructor
  · intro now text h
    have h1 : findSymAmount '₹' text.data = none := findSymAmount_eq_none '₹' h
    have h2 : findSymAmount '$' text.data = none := findSymAmount_eq_none '$' h
    have h3 : findNumeral text.data = none := findNumeral_eq_none h
    constructor <;> simp [parse, h1, h2, h3]
  · intro now text
    exact ⟨rfl, rfl⟩

/-- Witness for C7 at `"no digits here!"`. -/
theorem parse_defaults_and_verbatim_witness :
    (∀ c ∈ ("no digits here!" : String).data, c.isDigit = false) ∧
    (parse "t" "no digits here!").amount = 0 ∧
    (parse "t" "no digits here!").currency = "₹" ∧
    (parse "t" "no digits here!").description = "no digits here!" :=
  ⟨by decide,
   (parse_defaults_and_verbatim.1 "t" "no digits here!" (by decide)).1,
   (parse_defaults_and_verbatim.1 "t" "no digits here!" (by decide)).2,
   (parse_defaults_and_verbatim.2 "t" "no digits here!").1⟩

/-! ### Non-negativity and monotonicity of totals -/

lemma decVal_nonneg (cs : List Char) : 0 ≤ decVal cs := by
  unfold decVal
  split
  · exact add_nonneg (Nat.cast_nonneg _)
      (div_nonneg (Nat.cast_nonneg _) (by positivity))
  · exact Nat.cast_nonneg _

lemma parse_amount_cases (now text : String) :
    (parse now text).amount = 0 ∨ ∃ num, (parse now text).amount = decVal num := by
  rcases h1 : findSymAmount '₹' text.data with _ | n1
  · rcases h2 : findSymAmount '$' text.data with _ | n2
    · rcases h3 : findNumeral text.data with _ | n3
      · left
        simp [parse, h1, h2, h3]
      · right
        exact ⟨n3, by simp [parse, h1, h2, h3]⟩
    · right
      exact ⟨n2, by simp [parse, h1, h2]⟩
  · right
    exact ⟨n1, by simp [parse, h1]⟩

lemma parse_amount_nonneg (now text : String) : 0 ≤ (parse now text).amount := by
  rcases parse_amount_cases now text with h | ⟨num, h⟩
  · rw [h]
  · rw [h]
    exact decVal_nonneg num

lemma get_total_add (s : SessionState) (e : Expense) :
    get_total (add_expense s e) = get_total s + e.amount := by
  simp [get_total, add_expense]

lemma analyzer_execute_full (s : SessionState) (a : ℚ) (cur ds cat pa ri : String) :
    (analyzer_execute s ⟨some a, some cur, some ds, some cat, some pa, some ri⟩).2
      = add_expense s
          { id := "exp_" ++ natToStr (s.expenses.length + 1), amount := a,
            currency := cur, description := ds, category := cat,
            timestamp := pa, raw_input := ri } := rfl

lemma process_expense_total (now : String) (s : SessionState) (text : String) :
    get_total (process_expense now s text).2 = get_total s + (parse now text).amount := by
  simp only [process_expense, toCandidate]
  rw [analyzer_execute_full, get_total_add]

lemma process_many_append (now : String) (s : SessionState)
    (ts : List String) (t : String) :
    process_many now s (ts ++ [t]) = (process_expense now (process_many now s ts) t).2 := by
  induction ts generalizing s with
  | nil => rfl
  | cons u ts ih =>
    simp only [List.cons_append, process_many]
    exact ih _

lemma get_total_le_process_many (now : String) (ts : List String) :
    ∀ s : SessionState, get_total s ≤ get_total (process_many now s ts) := by
  induction ts with
  | nil =>
    intro s
    exact le_refl _
  | cons t ts ih =>
    intro s
    have hstep : get_total s ≤ get_total (process_expense now s t).2 := by
      rw [process_expense_total]
      have := parse_amount_nonneg now t
      linarith
    exact le_trans hstep (ih _)

/-- C10: every extracted amount is non-negative; each pipeline call adds
exactly the parsed amount to the ledger total, so from a fresh session the
total is always ≥ 0 and never decreases from one process call to the
next. -/
theorem amounts_nonneg_total_monotone :
    (∀ now text : String, 0 ≤ (parse now text).amount) ∧
    (∀ (now : String) (s : SessionState) (text : String),
      get_total (process_expense now s text).2
        = get_total s + (parse now text).amount ∧
      get_total s ≤ get_total (process_expense now s text).2) ∧
    (∀ (sid now : String) (ts : List String),
      0 ≤ get_total (process_many now (mkSession sid now) ts)) ∧
    (∀ (sid now : String) (ts : List String) (t : String),
      get_total (process_many now (mkSession sid now) ts)
        ≤ get_total (process_many now (mkSession sid now) (ts ++ [t]))) := by
  refine ⟨parse_amount_nonneg, ?_, ?_, ?_⟩
  · intro now s text
    refine ⟨process_expense_total now s text, ?_⟩
    rw [process_expense_total]
    have := parse_amount_nonneg now text
    linarith
  · intro sid now ts
    have h0 : get_total (mkSession sid now) = 0 := rfl
    have := get_total_le_process_many now ts (mkSession sid now)
    rw [h0] at this
    exact this
  · intro sid now ts t
    rw [process_many_append]
    rw [process_expense_total]
    have := parse_amount_nonneg now t
    linarith

end FinanceAgent
